import Mathlib

/-!

Verification of the basic_coro asynchronous-primitives library.

This file gives a shallow embedding, in Lean, of the parts of the library
that the verified properties talk about:

* the result slot `awaitable<T>` and its write end `awaitable_result<T>`
  (src/basic_coro/awaitable.hpp),
* the broadcast `distributor<T>` (src/basic_coro/distributor.hpp),
* the coroutine queue: `limited_queue`, `unlimited_queue` and `basic_queue`
  (src/basic_coro/queue.hpp),
* the completion iterator `when_each` (src/basic_coro/when_each.hpp),
* the flat-stack arena `flat_stack_memory_resource_extendable`
  (src/basic_coro/flat_stack_allocator.hpp).

Modelling conventions
=====================

* A coroutine handle (`std::coroutine_handle<>`) is a bare `Nat`; the
  value is opaque, it only identifies the consumer to be resumed.
* A `prepared_coro` (owned handle whose drop resumes) is an `Option Nat`:
  `some h` means the handle `h` is resumed when the value is consumed,
  `none` is the empty `prepared_coro`.
* C++ exceptions of user type are an abstract type `E`; an
  `std::exception_ptr` is a value of `E`.
* Machine integers (unsigned int / std::size_t) are modelled as `Nat`.
  Overflow of the queue counters and of the arena's size words is not
  reachable in any scenario proved below (the counts involved stay far
  below 2^32 / 2^64), so plain `Nat` arithmetic agrees with the wrapped
  arithmetic of the source on every state that appears in a theorem.
* The claims proved here are sequential (single-threaded) properties;
  the pluggable `Lock` of the containers is instantiated with the
  no-op `empty_lockable`, exactly as the library's single-threaded
  configuration does, and atomics are read/written in program order.
-/

namespace BasicCoro

/-! ## awaitable<T> (src/basic_coro/awaitable.hpp) -/

/-- The discriminant `awaitable<T>::State` together with the payload of
the resolved variants.  `V` is the stored value type (`store_type`), `E`
the type of captured exceptions.  The three pending variants -- a
coroutine waiting to be started, a locally stored callback, a heap
allocated callback -- carry their closure in the C++ source; the claims
below depend only on the discriminant of a pending slot, so the closure
payload is not repeated here (where a specific closure matters, e.g. the
queue's push/pop callbacks, it is modelled at its use site). -/
inductive AwtState (V E : Type) where
  | no_value : AwtState V E
  | value (v : V) : AwtState V E
  | exception (e : E) : AwtState V E
  | coro : AwtState V E
  | callback : AwtState V E
  | callback_ptr : AwtState V E
deriving DecidableEq

/-- Outcome of `await_resume`: either a value, or one of the two throwing
exits (`await_canceled_exception`, or rethrow of the captured exception). -/
inductive AwaitErr (E : Type) where
  | canceled : AwaitErr E
  | thrown (e : E) : AwaitErr E
deriving DecidableEq

variable {V E : Type}

/-- `awaitable::await_ready`: the slot is resolved iff its state is
`no_value`, `value` or `exception`. -/
def AwtState.await_ready : AwtState V E → Bool
  | .no_value => true
  | .value _ => true
  | .exception _ => true
  | _ => false

/-- `awaitable::await_resume`: a `value` state yields the value, an
`exception` state rethrows, every other state throws
`await_canceled_exception`. -/
def AwtState.await_resume : AwtState V E → Except (AwaitErr E) V
  | .value v => .ok v
  | .exception e => .error (.thrown e)
  | _ => .error .canceled

/-- An `awaitable<T>` object: the state plus the `_owner` handle of the
consumer awaiting it (`none` when nobody awaits). -/
structure Awt (V E : Type) where
  state : AwtState V E
  owner : Option Nat
deriving DecidableEq

/-- `awaitable::drop`: destroy the current state and become `no_value`. -/
def Awt.drop (a : Awt V E) : Awt V E :=
  { a with state := .no_value }

/-- `awaitable::wakeup`: if the slot is not resolved, `drop()` it; then
exchange the owner handle with the empty handle and return the previous
owner as a `prepared_coro` (resumed by the caller when it goes out of
scope). -/
def Awt.wakeup (a : Awt V E) : Awt V E × Option Nat :=
  let a1 := if a.state.await_ready then a else a.drop
  ({ a1 with owner := none }, a.owner)

/-- `awaitable_result<T>::deleter::operator()`: destroying a result object
whose internal pointer is still set calls `wakeup()` on the slot. -/
def Awt.result_drop (a : Awt V E) : Awt V E × Option Nat :=
  a.wakeup

/-- `awaitable::set_value(args...)` (the private member): destroy the
previous state, then construct the stored value; if the constructor
throws, the state becomes `exception` holding the thrown exception.  The
argument `ctor` is the outcome of running the `store_type` constructor:
`.ok v` when construction produces `v`, `.error e` when it throws `e`. -/
def Awt.set_value (a : Awt V E) (ctor : Except E V) : Awt V E :=
  { a with state :=
      match ctor with
      | .ok v => .value v
      | .error e => .exception e }

/-- `awaitable_result<T>::set_value`: write through the released pointer,
then `wakeup()` the slot.  The function never propagates the constructor's
exception: it always returns the prepared consumer. -/
def Awt.result_set_value (a : Awt V E) (ctor : Except E V) : Awt V E × Option Nat :=
  (a.set_value ctor).wakeup

/-- `awaitable_result<T>::set_empty`: `drop()` the slot then `wakeup()`. -/
def Awt.result_set_empty (a : Awt V E) : Awt V E × Option Nat :=
  a.drop.wakeup

/-- The state produced by the default constructor `awaitable()`: when the
stored type is default constructible the slot holds a default constructed
value, otherwise it is initialized with no value.  `dflt` is `some d`
when `store_type` is default constructible with default value `d` (for
`int` this is `0`, since `std::construct_at` value-initializes), and
`none` otherwise. -/
def Awt.default_ctor (dflt : Option V) : AwtState V E :=
  match dflt with
  | some d => .value d
  | none => .no_value

/-- `awaitable::copy_value`: a `value` or `exception` state is copied,
every other state yields a default constructed awaitable. -/
def AwtState.copy_value (dflt : Option V) : AwtState V E → AwtState V E
  | .value v => .value v
  | .exception e => .exception e
  | _ => Awt.default_ctor dflt

/-- Helper predicate used in theorem statements: the slot is resolved
with a value or with an exception. -/
def AwtState.is_value_or_exception : AwtState V E → Bool
  | .value _ => true
  | .exception _ => true
  | _ => false

/-! ## distributor<T> (src/basic_coro/distributor.hpp)

The `_results` vector holds, per subscriber, the write end
(`awaitable<T>::result`) of the subscriber's slot together with its
identification.  Since a result object is an owning pointer to the
subscriber's `awaitable`, the subscriber's slot is stored inline here. -/

/-- One entry of `distributor::_results` (`struct awaiting_info`). -/
structure AwaitingInfo (V E : Type) where
  r : Awt V E
  i : Nat
deriving DecidableEq

/-- The `distributor` state (list of currently subscribed waiters). -/
structure Distributor (V E : Type) where
  results : List (AwaitingInfo V E)
deriving DecidableEq

/-- `distributor::add_listener`: append the result object and its ident
to `_results`. -/
def Distributor.add_listener (d : Distributor V E) (r : Awt V E) (id : Nat) :
    Distributor V E :=
  { results := d.results ++ [⟨r, id⟩] }

/-- `distributor::broadcast(buffer, args...)`: for every registered
waiter, construct the value into its slot (`r.r(args...)`, i.e.
`result_set_value`) and collect the returned `prepared_coro`; then clear
`_results`.  The second component collects, per waiter, the resolved
slot and the prepared consumer handle. -/
def Distributor.broadcast (d : Distributor V E) (v : V) :
    Distributor V E × List (Awt V E × Option Nat) :=
  ({ results := [] }, d.results.map (fun a => a.r.result_set_value (.ok v)))

/-! ## queue (src/basic_coro/queue.hpp)

`basic_queue<Queue_Impl, Lock>` is templated over the storage
implementation; the two instantiations are `limited_queue<T, count>`
(a fixed ring of `count` items) and `unlimited_queue<T>` (a
`std::deque`).  The template parameter is modelled as a record of the
four operations the storage provides. -/

/-- The storage interface used by `basic_queue` (`Queue_Impl`). -/
structure QueueImpl (Q V : Type) where
  is_full : Q → Bool
  is_empty : Q → Bool
  push : Q → V → Q
  pop : Q → Option V × Q

/-- State of `limited_queue<T, count>`: the item ring (`_items`, a slot
is `none` while no item lives in it) and the free-running counters
`_front` / `_back`. -/
structure LimitedQueue (V : Type) where
  items : List (Option V)
  front : Nat
  back : Nat
deriving DecidableEq

/-- `limited_queue<T, count>`:
`is_full` is `_front - _back >= count`, `is_empty` is
`_front - _back == 0`, `push` constructs at `_items[_front % count]` and
increments `_front`, `pop` moves out of `_items[_back % count]`,
destroys the slot and increments `_back`.  (The counters are `unsigned`
in the source; their difference equals the item count as long as fewer
than 2^32 operations happened, which holds in every scenario below.) -/
def limited_queue (V : Type) (count : Nat) : QueueImpl (LimitedQueue V) V where
  is_full q := decide (q.front - q.back ≥ count)
  is_empty q := decide (q.front - q.back = 0)
  push q v :=
    { items := q.items.set (q.front % count) (some v)
      front := q.front + 1
      back := q.back }
  pop q :=
    (q.items.getD (q.back % count) none,
     { items := q.items.set (q.back % count) none
       front := q.front
       back := q.back + 1 })

/-- `unlimited_queue<T>`: a `std::deque<T>`.  `push` is
`_q.emplace_back`, and `pop` is, verbatim from the source,

  T r = std::move(_q.front());
  _q.pop_back();
  return r;

that is: the returned item is the front of the deque but the removed
item is the back.  (For the trivially copyable element types of the
tests, moving out of the front leaves the front element's value in
place, which the model's copy reflects.) -/
def unlimited_queue (V : Type) : QueueImpl (List V) V where
  is_full _ := false
  is_empty q := q.isEmpty
  push q v := q ++ [v]
  pop q := (q.head?, q.dropLast)

/-- One node of `basic_queue::_push_queue` (`slot<push_async_payload>`):
the constructed value waiting for ring space, and the producer's bound
result handle (`awaitable<void_t>::result`), kept as the bare handle of
the producer to resume. -/
structure PushWaiter (V : Type) where
  val : V
  r : Nat
deriving DecidableEq

/-- The `basic_queue` state: storage, the FIFO of blocked consumers
(`_pop_queue`, each node owning the consumer's result slot), the FIFO of
blocked producers (`_push_queue`) and the `_closed` flag. -/
structure BasicQueue (Q V E : Type) where
  q : Q
  pop_queue : List (Awt V E)
  push_queue : List (PushWaiter V)
  closed : Bool

variable {Q V E : Type}

/-- `basic_queue::push2(args...)`: if the storage is empty and a
pop-waiter exists, hand the value directly to that waiter
(`slot->payload(args...)`, resolving and resuming its consumer slot);
otherwise store the value.  The second component is the waiter's
resolution, when a direct hand-off happened: the resolved consumer slot
together with the prepared consumer handle. -/
def push2 (I : QueueImpl Q V) (st : BasicQueue Q V E) (v : V) :
    BasicQueue Q V E × Option (Awt V E × Option Nat) :=
  if I.is_empty st.q then
    match st.pop_queue with
    | s :: rest => ({ st with pop_queue := rest }, some (s.result_set_value (.ok v)))
    | [] => ({ st with q := I.push st.q v }, none)
  else ({ st with q := I.push st.q v }, none)

/-- `basic_queue::pop2_full`: pop the storage, and if a push-waiter
exists, admit its value into the storage and resume the producer
(`s->payload.r()`); the third component is the resumed producer
handle. -/
def pop2_full (I : QueueImpl Q V) (st : BasicQueue Q V E) :
    Option V × BasicQueue Q V E × Option Nat :=
  let p := I.pop st.q
  match st.push_queue with
  | s :: rest =>
      (p.1, { st with q := I.push p.2 s.val, push_queue := rest }, some s.r)
  | [] => (p.1, { st with q := p.2 }, none)

/-- `basic_queue::pop2`: on a full storage go through `pop2_full`
(admitting a blocked producer), otherwise just pop the storage. -/
def pop2 (I : QueueImpl Q V) (st : BasicQueue Q V E) :
    Option V × BasicQueue Q V E × Option Nat :=
  if I.is_full st.q then pop2_full I st
  else
    let p := I.pop st.q
    (p.1, { st with q := p.2 }, none)

/-- The awaitable returned by `basic_queue::push`: either already
resolved (`awaitable{}`, the value was handled inside `push`), or a
pending slot holding the `push_async_cb` callback together with the
constructed value (`push_async_payload::val`). -/
inductive PushAwt (V : Type) where
  | ready : PushAwt V
  | pendingCb (v : V) : PushAwt V
deriving DecidableEq

/-- `PushAwt` readiness: mirrors `awaitable::is_ready()` on the slot
returned by `push` (a default constructed awaitable is resolved, a
callback slot is not). -/
def PushAwt.is_ready : PushAwt V → Bool
  | .ready => true
  | .pendingCb _ => false

/-- The awaitable returned by `basic_queue::pop`: either resolved with
the popped value, or a pending slot holding the `pop_async_cb`
callback.  (`resolved none` marks the unreachable pop-of-empty-storage
branch, which `pop` guards with `is_empty`.) -/
inductive PopAwt (V : Type) where
  | pending : PopAwt V
  | resolved (v : Option V) : PopAwt V
deriving DecidableEq

/-- `PopAwt` readiness: mirrors `awaitable::is_ready()` on the slot
returned by `pop`. -/
def PopAwt.is_ready : PopAwt V → Bool
  | .pending => false
  | .resolved _ => true

/-- `basic_queue::push(args...)`: on a full storage, return the pending
awaitable holding `push_async_cb` (nothing else happens until it is
awaited or destroyed); otherwise run `push2` inside the call and return
a resolved awaitable.  The third component is the consumer hand-off
event of `push2`, if one happened. -/
def BasicQueue.push (I : QueueImpl Q V) (st : BasicQueue Q V E) (v : V) :
    PushAwt V × BasicQueue Q V E × Option (Awt V E × Option Nat) :=
  if I.is_full st.q then (.pendingCb v, st, none)
  else
    let p := push2 I st v
    (.ready, p.1, p.2)

/-- `basic_queue::pop()`: on an empty storage return the pending
awaitable holding `pop_async_cb`; otherwise pop through `pop2` and
return a resolved awaitable (third component: the producer resumed by
`pop2_full`, if any). -/
def BasicQueue.pop (I : QueueImpl Q V) (st : BasicQueue Q V E) :
    PopAwt V × BasicQueue Q V E × Option Nat :=
  if I.is_empty st.q then (.pending, st, none)
  else
    let p := pop2 I st
    (.resolved p.1, p.2.1, p.2.2)

/-- `basic_queue::push_async_cb::operator()(r)`: invoked when the
pending push awaitable is awaited (`r` is then the bound producer
handle) or destroyed (`r` is unbound, `none`).  Unbound: return with no
effect.  Bound: if the storage is (still) full, move the result into the
payload and append the node to `_push_queue` (the `Bool` component
records this registration); otherwise run `push2` with the stored
value. -/
def push_async_cb (I : QueueImpl Q V) (st : BasicQueue Q V E) (v : V)
    (r : Option Nat) :
    BasicQueue Q V E × Option (Awt V E × Option Nat) × Bool :=
  match r with
  | none => (st, none, false)
  | some prod =>
      if I.is_full st.q then
        ({ st with push_queue := st.push_queue ++ [⟨v, prod⟩] }, none, true)
      else
        let p := push2 I st v
        (p.1, p.2, false)

/-- Result of running `basic_queue::pop_async_cb::operator()(r)`:
the queue state afterwards, the consumer slot's resolution (resolved
slot plus prepared consumer) when the callback resolved it, the producer
resumed by `pop2_full` (if any), and whether the consumer was appended
to `_pop_queue`. -/
structure PopCbOut (Q V E : Type) where
  st : BasicQueue Q V E
  slot : Option (Awt V E × Option Nat)
  resm : Option Nat
  registered : Bool

/-- `basic_queue::pop_async_cb::operator()(r)`: invoked when the pending
pop awaitable is awaited (`r` is `some` consumer slot) or destroyed
(`r` unbound).  Empty storage: unbound does nothing; on a closed queue
the consumer is resolved with `std::nullopt` (Empty); otherwise the
consumer is moved into `_pop_queue`.  Non-empty storage: `pop2` runs and
its value resolves the consumer (`r(me->pop2(resm).get())`). -/
def pop_async_cb (I : QueueImpl Q V) (st : BasicQueue Q V E)
    (r : Option (Awt V E)) : PopCbOut Q V E :=
  if I.is_empty st.q then
    match r with
    | none => ⟨st, none, none, false⟩
    | some c =>
        if st.closed then ⟨st, some c.result_set_empty, none, false⟩
        else ⟨{ st with pop_queue := st.pop_queue ++ [c] }, none, none, true⟩
  else
    let p := pop2 I st
    match r with
    | none => ⟨p.2.1, none, p.2.2, false⟩
    | some c =>
        match p.1 with
        | some x => ⟨p.2.1, some (c.result_set_value (.ok x)), p.2.2, false⟩
        | none => ⟨p.2.1, some (c, none), p.2.2, false⟩

/-- `basic_queue::close()`: set `_closed`, detach the whole
`_pop_queue`, and resolve each detached waiter with `std::nullopt`
(`s->payload = std::nullopt`, i.e. `result_set_empty`), in FIFO order.
The second component lists the waiters' resolutions. -/
def BasicQueue.close (st : BasicQueue Q V E) :
    BasicQueue Q V E × List (Awt V E × Option Nat) :=
  ({ st with closed := true, pop_queue := [] },
   st.pop_queue.map (fun c => c.result_set_empty))

/-- A `co_await q.push(v)` of the tests, sequentially: when `push`
returns a pending awaitable, awaiting it binds the producer handle and
invokes `push_async_cb`; when it returns a resolved awaitable the await
finishes at once.  The producer handle registered with a blocked push is
`prod`. -/
def push_awaited (I : QueueImpl Q V) (st : BasicQueue Q V E) (v : V)
    (prod : Nat) : BasicQueue Q V E × Option (Awt V E × Option Nat) :=
  let p := BasicQueue.push I st v
  match p.1 with
  | .ready => (p.2.1, p.2.2)
  | .pendingCb w =>
      let o := push_async_cb I p.2.1 w (some prod)
      (o.1, o.2.1)

/-- Destroying the awaitable returned by `push` without awaiting it:
`awaitable::dtor` on a resolved slot just destroys the stored value; on
a callback slot it invokes the callback with an unbound result
(`get_local_callback()->call({})`).  Returns the queue state afterwards
and the hand-off event, if any. -/
def push_then_destroy (I : QueueImpl Q V) (st : BasicQueue Q V E) (v : V) :
    BasicQueue Q V E × Option (Awt V E × Option Nat) :=
  let p := BasicQueue.push I st v
  match p.1 with
  | .ready => (p.2.1, p.2.2)
  | .pendingCb w =>
      let o := push_async_cb I p.2.1 w none
      (o.1, o.2.1)

/-- The consumer loop of the queue tests (`pop` until an Empty result),
sequentially: await the awaitable returned by `pop`; a resolved value
extends the output, a pending awaitable is awaited (running
`pop_async_cb` with a bound consumer slot), and an Empty resolution (or
a registration, which would suspend forever in this single-threaded
drain) stops the loop.  `fuel` bounds the number of pops. -/
def drain (I : QueueImpl Q V) : Nat → BasicQueue Q V E → List V
  | 0, _ => []
  | fuel + 1, st =>
      match BasicQueue.pop I st with
      | (.resolved (some v), st1, _) => v :: drain I fuel st1
      | (.resolved none, _, _) => []
      | (.pending, st1, _) =>
          let o := pop_async_cb I st1 (some { state := .callback, owner := some 0 })
          match o.slot with
          | some s =>
              match s.1.state with
              | .value x => x :: drain I fuel o.st
              | _ => []
          | none => []

/-! ## when_each (src/basic_coro/when_each.hpp)

`when_each<count>` registers one fake coroutine frame (`Slot`) per
awaiter; when awaiter number `idx` completes, its slot's resumption
calls `resumed`, which claims the next write cell (`_free_slot++`) and
stores `idx + 2` there (`_finished[wridx]`, where 0 means pending and 1
means pending-with-waiter).  The consumer reads the cells in order
through `await_ready` / `await_resume` at cursor `_nx`.  The claims
proved here are sequential, so the relaxed/acquire/release atomics are
ordinary reads and writes. -/

/-- The `when_each` state: `_finished` (one cell per awaiter),
`_free_slot`, `_nx` and `_cnt`. -/
structure WhenEach where
  finished : List Nat
  free_slot : Nat
  nx : Nat
  cnt : Nat
deriving DecidableEq

/-- `when_each::resumed(nd)` with `idx` the index of the completed
awaiter (`nd - _slots`): claim the next result cell, exchange `idx + 2`
into it, and report whether a consumer was already awaiting there
(`st == 1`), in which case it is resumed. -/
def WhenEach.resumed (w : WhenEach) (idx : Nat) : WhenEach × Bool :=
  let wridx := w.free_slot
  let st := w.finished.getD wridx 0
  ({ w with finished := w.finished.set wridx (idx + 2), free_slot := wridx + 1 },
   st == 1)

/-- `when_each::await_ready`: every index consumed, or the next cell is
already written. -/
def WhenEach.await_ready (w : WhenEach) : Bool :=
  decide (w.nx ≥ w.cnt) || w.finished.getD w.nx 0 != 0

/-- `when_each::await_resume`: past the end return `_nx` itself;
otherwise read the next cell, advance the cursor and return the stored
value minus 2. -/
def WhenEach.await_resume (w : WhenEach) : Nat × WhenEach :=
  if w.nx ≥ w.cnt then (w.nx, w)
  else (w.finished.getD w.nx 0 - 2, { w with nx := w.nx + 1 })

/-- The state right after the `when_each` constructor registered `n`
pending awaiters: all cells 0, both cursors 0, `_cnt = n`. -/
def WhenEach.start (n : Nat) : WhenEach :=
  ⟨List.replicate n 0, 0, 0, n⟩

/-- Completion of the registered awaiters in the order given by `order`
(element k of `order` is the index of the awaiter that completed
k-th). -/
def WhenEach.applyAll (w : WhenEach) (order : List Nat) : WhenEach :=
  order.foldl (fun w1 i => (w1.resumed i).1) w

/-- `n` successive awaits of the `when_each` object: collect the values
returned by `await_resume`. -/
def WhenEach.consume : WhenEach → Nat → List Nat × WhenEach
  | w, 0 => ([], w)
  | w, n + 1 =>
      let p := w.await_resume
      let q := p.2.consume n
      (p.1 :: q.1, q.2)

/-! ## flat stack arena (src/basic_coro/flat_stack_allocator.hpp)

`flat_stack_memory_resource_extendable` owns an array of
`std::size_t` words (`_mem`, `_count` words) and a bump index `_top`
(in words).  The memory is modelled as a total function from word index
to word value (only the trailer words the arena itself writes matter for
the claims); a pointer returned by `do_allocate` is its word index in
`_mem` (allocations are always word aligned, so the byte offset is an
exact multiple of `block_size`). -/

namespace FlatStack

/-- `block_size = sizeof(std::size_t)` (the 64-bit targets). -/
def block_size : Nat := 8

/-- `to_blocks`: bytes rounded up to whole words. -/
def to_blocks (bytes : Nat) : Nat := (bytes + block_size - 1) / block_size

/-- Pointwise update of the word array. -/
def wset (f : Nat → Nat) (i v : Nat) : Nat → Nat :=
  fun j => if j = i then v else f j

/-- The arena state: word array, capacity in words, top in words. -/
structure Resource where
  mem : Nat → Nat
  count : Nat
  top : Nat

/-- The alignment padding of `do_allocate`: with `align_in_blocks`
being `to_blocks(alignment)`, this is
`(align_in_blocks - top % align_in_blocks) % align_in_blocks`. -/
def aextra (top alignment : Nat) : Nat :=
  (to_blocks alignment - top % to_blocks alignment) % to_blocks alignment

/-- The reserved word count of `do_allocate`:
`to_blocks(bytes) + aextra + 1` (payload, alignment padding, trailer). -/
def needsz (top bytes alignment : Nat) : Nat :=
  to_blocks bytes + aextra top alignment + 1

/-- `do_allocate(bytes, alignment)`: round the top up to the alignment
(`aextra` padding words), reserve `needsz = to_blocks(bytes) + aextra + 1`
words, write the reserved word count shifted left by one
(`needsz << 1`) into the trailer word at the end of the reservation,
advance the top, and return the word index of the payload.  A
reservation beyond `_count` throws `std::bad_alloc` (`none`). -/
def do_allocate (st : Resource) (bytes alignment : Nat) : Option (Nat × Resource) :=
  if st.top + needsz st.top bytes alignment > st.count then none
  else
    some (st.top + aextra st.top alignment,
      { st with
          mem := wset st.mem (st.top + needsz st.top bytes alignment - 1)
                   (2 * needsz st.top bytes alignment)
          top := st.top + needsz st.top bytes alignment })

/-- `cleanup()`: while the word just below the top is a trailer with its
least significant bit set, retract the top by the trailer's word count
(`sep >> 1`).  The C++ loop is modelled with explicit fuel; on every
well-formed state (all trailers record at least one word, which
`do_allocate` guarantees by its `+ 1`) the loop performs at most `_top`
iterations, so calling it with fuel `_top` computes the same result as
the source's unbounded loop. -/
def cleanup (mem : Nat → Nat) : Nat → Nat → Nat
  | 0, top => top
  | fuel + 1, top =>
      if top > 0 then
        let sep := mem (top - 1)
        if sep % 2 = 1 then cleanup mem fuel (top - sep / 2) else top
      else top

/-- `do_deallocate(p, bytes, _)`: recompute the trailer index from the
pointer and the allocation size (`pos + to_blocks(bytes)`), set the
trailer's least significant bit (`_mem[sep] |= 1`), then `cleanup()`.
`p` is the word index returned by `do_allocate`. -/
def do_deallocate (st : Resource) (p bytes : Nat) : Resource :=
  { st with
      mem := wset st.mem (p + to_blocks bytes) (st.mem (p + to_blocks bytes) ||| 1)
      top := cleanup
        (wset st.mem (p + to_blocks bytes) (st.mem (p + to_blocks bytes) ||| 1))
        st.top st.top }

/-- A sequence of allocations: run `do_allocate` for each
`(bytes, alignment)` request, collecting `(pointer, bytes)` for each
block in allocation order; `none` if any allocation throws. -/
def alloc_all (st : Resource) : List (Nat × Nat) → Option (List (Nat × Nat) × Resource)
  | [] => some ([], st)
  | (bytes, align) :: rest =>
      match do_allocate st bytes align with
      | none => none
      | some (p, st1) =>
          match alloc_all st1 rest with
          | none => none
          | some pr => some ((p, bytes) :: pr.1, pr.2)

/-- Deallocate the numbered blocks in the order given by `ord`: block
`i` is freed by calling `do_deallocate` with the pointer and size that
were used when it was allocated. -/
def dealloc_seq (st : Resource) (blocks : List (Nat × Nat)) (ord : List Nat) : Resource :=
  ord.foldl (fun s i => do_deallocate s (blocks.getD i (0, 0)).1 (blocks.getD i (0, 0)).2) st

/-! Proof scaffolding: the reasoning about the arena keeps, per live
allocation above some base word index, a ghost record of its pointer,
its requested byte size, its reserved word count (`needsz`), and
whether it has been freed. -/

/-- Ghost record of one allocation. -/
structure Blk where
  p : Nat
  bytes : Nat
  sz : Nat
  fr : Bool

/-- Total reserved words of a ghost block list. -/
def sumSz : List Blk → Nat
  | [] => 0
  | b :: r => b.sz + sumSz r

/-- Reserved words up to and including the last still-live block: the
span the arena's `cleanup` cannot retract over (blocks are listed bottom
to top; a freed suffix on top is reclaimed). -/
def trimmed : List Blk → Nat
  | [] => 0
  | b :: r => if b.fr ∧ trimmed r = 0 then 0 else b.sz + trimmed r

/-- The ghost blocks lie consecutively above base `B`, each with a
positive word count, and each block's recomputed trailer index
(`p + to_blocks bytes`) is the last word of its reservation. -/
def layout (B : Nat) : List Blk → Prop
  | [] => True
  | b :: r => b.p + to_blocks b.bytes = B + b.sz - 1 ∧ 0 < b.sz ∧ layout (B + b.sz) r

/-- The word array holds, at each ghost block's trailer index, the
block's reserved word count shifted left by one, with the low bit set
iff the block was freed. -/
def agrees (mem : Nat → Nat) (B : Nat) : List Blk → Prop
  | [] => True
  | b :: r => mem (B + b.sz - 1) = 2 * b.sz + (if b.fr then 1 else 0) ∧
      agrees mem (B + b.sz) r

/-- Mark ghost block `i` as freed. -/
def markAt : List Blk → Nat → List Blk
  | [], _ => []
  | b :: r, 0 => { b with fr := true } :: r
  | b :: r, i + 1 => b :: markAt r i

/-- Default ghost block used with `getD`. -/
def d0 : Blk := ⟨0, 0, 0, true⟩

end FlatStack

end BasicCoro

namespace BasicCoro

/-! ## Theorems about the awaitable slot -/

variable {V E : Type}

/-- C2, as written, is false: the claim quantifies over every bound slot,
but `wakeup()` drops the state only when the slot is not yet resolved
(`if (!is_ready()) drop();`).  A slot that is already resolved with a
value and is then bound through `create_result` keeps its value when the
result object is destroyed unset, and its consumer receives the value,
not `Canceled`.  Concretely: the slot `{ state = Value 42, owner = h }`
stays in the `value` state after the result is dropped and
`await_resume` returns 42. -/
theorem c2_counterexample :
    ((Awt.mk (V := Nat) (E := Unit) (.value 42) (some 0)).result_drop.1.state ≠
      AwtState.no_value) ∧
    (Awt.mk (V := Nat) (E := Unit) (.value 42) (some 0)).result_drop.1.state.await_resume =
      Except.ok 42 := by
  constructor
  · intro h
    simp [Awt.result_drop, Awt.wakeup, AwtState.await_ready] at h
  · rfl

/-- C2 (amended): for every bound slot that is not already resolved with
a value or an exception, destroying its `awaitable_result` without
setting anything leaves the slot in the `no_value` (Empty) state, resumes
the bound consumer exactly once (the returned `prepared_coro` carries the
owner handle, the slot's owner field is cleared so no further wakeup can
resume it again), and the consumer's `await_resume` then throws
`await_canceled_exception`. -/
theorem c2_amended (a : Awt V E) (h0 : Nat)
    (hb : a.owner = some h0)
    (hs : a.state.is_value_or_exception = false) :
    a.result_drop = ({ state := .no_value, owner := none }, some h0) ∧
    a.result_drop.1.wakeup.2 = none ∧
    a.result_drop.1.state.await_resume = (Except.error .canceled : Except (AwaitErr E) V) := by
  cases a with
  | mk st ow =>
    cases st <;>
      simp_all [Awt.result_drop, Awt.wakeup, Awt.drop, AwtState.await_ready,
        AwtState.await_resume, AwtState.is_value_or_exception]

/-- C2 witness: the amended theorem applied to a concrete bound pending
slot (a `callback` slot owned by handle 7). -/
theorem c2_witness :
    (Awt.mk (V := Nat) (E := Unit) .callback (some 7)).result_drop =
      ({ state := .no_value, owner := none }, some 7) ∧
    (Awt.mk (V := Nat) (E := Unit) .callback (some 7)).result_drop.1.wakeup.2 = none ∧
    (Awt.mk (V := Nat) (E := Unit) .callback (some 7)).result_drop.1.state.await_resume =
      (Except.error .canceled : Except (AwaitErr Unit) Nat) :=
  c2_amended (Awt.mk .callback (some 7)) 7 rfl rfl

/-- C4, as written, is false: `copy_value()` on a pending (or `no_value`)
slot returns a default constructed awaitable, and for a default
constructible store type the default constructor produces a slot that is
resolved with the default constructed value, not an Empty slot.
Concretely, with `T = int` (default value 0), copying a pending
`callback` slot yields a slot in the `value 0` state whose
`await_resume` returns 0 instead of raising `Canceled`. -/
theorem c4_counterexample :
    (AwtState.copy_value (V := Nat) (E := Unit) (some 0) .callback ≠ .no_value) ∧
    (AwtState.copy_value (V := Nat) (E := Unit) (some 0) .callback).await_resume =
      Except.ok 0 := by
  constructor
  · intro h
    simp [AwtState.copy_value, Awt.default_ctor] at h
  · rfl

/-- C4 (amended): `copy_value()` on a slot resolved with a value or an
exception returns a slot containing a copy of that value or exception.
On any other slot (pending or `no_value`) it returns a default
constructed awaitable: when the store type is default constructible this
slot is resolved with the default constructed value (so awaiting it
yields that value), and only when the store type is not default
constructible is the slot Empty (awaiting it raises `Canceled`). -/
theorem c4_amended (dflt : Option V) (s : AwtState V E) :
    (∀ v, s = .value v → s.copy_value dflt = .value v) ∧
    (∀ e, s = .exception e → s.copy_value dflt = .exception e) ∧
    (s.is_value_or_exception = false →
      s.copy_value dflt = Awt.default_ctor dflt ∧
      (∀ d, dflt = some d → (s.copy_value dflt).await_resume = Except.ok d) ∧
      (dflt = none →
        (s.copy_value dflt).await_resume = (Except.error .canceled : Except (AwaitErr E) V))) := by
  refine ⟨?_, ?_, ?_⟩
  · rintro v rfl; rfl
  · rintro e rfl; rfl
  · intro hs
    refine ⟨?_, ?_, ?_⟩
    · cases s <;> simp_all [AwtState.is_value_or_exception, AwtState.copy_value]
    · rintro d rfl
      cases s <;>
        simp_all [AwtState.is_value_or_exception, AwtState.copy_value,
          Awt.default_ctor, AwtState.await_resume]
    · rintro rfl
      cases s <;>
        simp_all [AwtState.is_value_or_exception, AwtState.copy_value,
          Awt.default_ctor, AwtState.await_resume]

/-- C4 witness: the amended theorem applied to the concrete pending
`callback` slot with a default constructible store type (default 0):
the copy is the default constructed slot `value 0`. -/
theorem c4_witness :
    (AwtState.copy_value (V := Nat) (E := Unit) (some 0) .callback =
      Awt.default_ctor (some 0)) ∧
    (AwtState.copy_value (V := Nat) (E := Unit) (some 0) .callback).await_resume =
      Except.ok 0 :=
  ⟨((c4_amended (some 0) .callback).2.2 rfl).1,
   ((c4_amended (some 0) .callback).2.2 rfl).2.1 0 rfl⟩

/-- C8: if constructing the stored value from the producer's arguments
throws `e`, the producer side `awaitable_result::set_value` still returns
normally (it is a total function here; the `try`/`catch` in
`awaitable::set_value` captures the exception), the slot ends in the
`exception e` state with its consumer woken (the returned prepared
handle is exactly the slot's owner), and the consumer's `await_resume`
rethrows `e`. -/
theorem c8_set_value_captures_throw (a : Awt V E) (e : E) :
    a.result_set_value (.error e) = ({ state := .exception e, owner := none }, a.owner) ∧
    (AwtState.exception e : AwtState V E).await_resume = Except.error (.thrown e) := by
  constructor
  · cases a with
    | mk st ow =>
      simp [Awt.result_set_value, Awt.set_value, Awt.wakeup, AwtState.await_ready]
  · rfl

/-- Resolving a result slot with no value: `result_set_empty` always
leaves the slot `no_value` with its owner prepared for resumption. -/
theorem result_set_empty_eq (c : Awt V E) :
    c.result_set_empty = ({ state := .no_value, owner := none }, c.owner) := by
  cases c with
  | mk st ow => simp [Awt.result_set_empty, Awt.drop, Awt.wakeup, AwtState.await_ready]

/-- Resolving a result slot with a value: `result_set_value (.ok v)`
always leaves the slot in the `value v` state with its owner prepared
for resumption. -/
theorem result_set_value_ok_eq (c : Awt V E) (v : V) :
    c.result_set_value (.ok v) = ({ state := .value v, owner := none }, c.owner) := by
  cases c with
  | mk st ow =>
      simp [Awt.result_set_value, Awt.set_value, Awt.wakeup, AwtState.await_ready]

/-- C6: `broadcast(v)` resolves each currently subscribed slot with the
value `v` (each slot moves to the `value v` state and its consumer handle
is returned prepared for resumption), and empties the subscriber list;
a waiter subscribing after the broadcast is merely appended to the now
empty list with its slot untouched, so it is not resolved by that
broadcast. -/
theorem c6_broadcast (d : Distributor V E) (v : V) :
    (d.broadcast v).1.results = [] ∧
    (d.broadcast v).2 =
      d.results.map (fun a => ({ state := .value v, owner := none }, a.r.owner)) ∧
    (∀ (r : Awt V E) (id : Nat),
      ((d.broadcast v).1.add_listener r id).results = [⟨r, id⟩]) := by
  refine ⟨rfl, ?_, fun r id => rfl⟩
  simp only [Distributor.broadcast]
  apply List.map_congr_left
  intro a _
  cases a with
  | mk r i =>
    cases r with
    | mk st ow =>
      simp [Awt.result_set_value, Awt.set_value, Awt.wakeup, AwtState.await_ready]

/-! ## Theorems about the queue -/

/-- C1 fails on the code, and the code contradicts its own documentation:
`unlimited_queue::pop` is documented to return the item removed from the
queue, but it moves out of `_q.front()` while calling `_q.pop_back()`,
so the returned item is the front while the removed item is the back.
On the deque holding 1, 2 (in push order), `pop` returns 1 yet removes
2, leaving 1 in the deque.  Consequently the round-trip of the claim on
the unbounded queue -- push 1, push 2, close, pop until Empty -- yields
the received sequence 1, 1 instead of the pushed sequence 1, 2: the
second pop does not receive the second push. -/
theorem c1_unlimited_pop_mismatch :
    ((unlimited_queue Nat).pop [1, 2] = (some 1, [1])) ∧
    drain (unlimited_queue Nat) 5
      (BasicQueue.close
        (BasicQueue.push (unlimited_queue Nat)
          (BasicQueue.push (unlimited_queue Nat)
            (⟨[], [], [], false⟩ : BasicQueue (List Nat) Nat Unit) 1).2.1 2).2.1).1
      = [1, 1] ∧
    ([1, 1] : List Nat) ≠ [1, 2] := by
  refine ⟨rfl, rfl, by decide⟩

/-- C3, as written, is false in its synchronous-resolution part: a
`pop()` on an empty closed queue does not return an already resolved
awaitable.  `basic_queue::pop` tests only `is_empty` and returns the
awaitable holding `pop_async_cb`, a pending (callback state) slot; the
`_closed` flag is consulted only when that slot is awaited.  Concretely,
on the empty closed unbounded queue the awaitable returned by `pop()`
reports `is_ready() == false` at the time `pop()` returns. -/
theorem c3_counterexample :
    (BasicQueue.pop (unlimited_queue Nat)
      (⟨[], [], [], true⟩ : BasicQueue (List Nat) Nat Unit)).1.is_ready = false := rfl

/-- C3 (amended): `close()` marks the queue closed and resolves every
pop-waiter outstanding at that moment with Empty (each detached waiter
slot becomes `no_value` and its consumer is resumed).  A subsequent
`pop()` on the (still) empty closed queue returns a *pending* awaitable
-- it is not yet resolved when `pop()` returns -- but its first await
resolves it with Empty immediately: the stored `pop_async_cb`, invoked
with the bound consumer slot, sets `std::nullopt` into the slot and
returns the consumer's own handle for immediate resumption, without
touching the queue state and without registering a waiter. -/
theorem c3_amended (I : QueueImpl Q V) (st st2 : BasicQueue Q V E) (c : Awt V E)
    (he : I.is_empty st2.q = true) (hc : st2.closed = true) :
    (BasicQueue.close st).1 = { st with closed := true, pop_queue := [] } ∧
    (BasicQueue.close st).2 =
      st.pop_queue.map
        (fun w => (({ state := .no_value, owner := none } : Awt V E), w.owner)) ∧
    (BasicQueue.pop I st2).1.is_ready = false ∧
    (BasicQueue.pop I st2).2.1 = st2 ∧
    pop_async_cb I st2 (some c) =
      ⟨st2, some ({ state := .no_value, owner := none }, c.owner), none, false⟩ := by
  refine ⟨rfl, ?_, ?_, ?_, ?_⟩
  · simp only [BasicQueue.close]
    exact List.map_congr_left (fun w _ => result_set_empty_eq w)
  · simp [BasicQueue.pop, he, PopAwt.is_ready]
  · simp [BasicQueue.pop, he]
  · simp [pop_async_cb, he, hc, result_set_empty_eq c]

/-- C3 witness: the amended theorem applied concretely -- a queue with
one outstanding pop-waiter (slot owned by handle 5) being closed, and a
pop plus first await on the empty closed unbounded queue with a consumer
slot owned by handle 9. -/
theorem c3_witness :
    (BasicQueue.close
        (⟨[], [⟨.callback, some 5⟩], [], false⟩ : BasicQueue (List Nat) Nat Unit)).1 =
      { (⟨[], [⟨.callback, some 5⟩], [], false⟩ : BasicQueue (List Nat) Nat Unit) with
          closed := true, pop_queue := [] } ∧
    (BasicQueue.close
        (⟨[], [⟨.callback, some 5⟩], [], false⟩ : BasicQueue (List Nat) Nat Unit)).2 =
      ([⟨.callback, some 5⟩] : List (Awt Nat Unit)).map
        (fun w => (({ state := .no_value, owner := none } : Awt Nat Unit), w.owner)) ∧
    (BasicQueue.pop (unlimited_queue Nat)
      (⟨[], [], [], true⟩ : BasicQueue (List Nat) Nat Unit)).1.is_ready = false ∧
    (BasicQueue.pop (unlimited_queue Nat)
      (⟨[], [], [], true⟩ : BasicQueue (List Nat) Nat Unit)).2.1 =
      (⟨[], [], [], true⟩ : BasicQueue (List Nat) Nat Unit) ∧
    pop_async_cb (unlimited_queue Nat)
      (⟨[], [], [], true⟩ : BasicQueue (List Nat) Nat Unit)
      (some ⟨.callback, some 9⟩) =
      ⟨⟨[], [], [], true⟩, some ({ state := .no_value, owner := none }, some 9), none, false⟩ :=
  c3_amended (unlimited_queue Nat) ⟨[], [⟨.callback, some 5⟩], [], false⟩
    ⟨[], [], [], true⟩ ⟨.callback, some 9⟩ rfl rfl

/-- C9: a push whose awaitable is destroyed without being awaited takes
effect iff the queue was not full at the call.  The awaitable returned
by `push` is resolved iff the storage was not full; in that case the
value was already handled inside `push` itself (exactly the `push2`
effect: enqueued, or handed directly to a blocked pop-waiter) and
destroying the resolved awaitable changes nothing further.  On a full
queue `push` returns the pending callback slot, and destroying it
invokes the stored `push_async_cb` with an unbound result, which returns
at once without enqueuing, leaving the queue contents unchanged and
producing no hand-off. -/
theorem c9_push_destroy (I : QueueImpl Q V) (st : BasicQueue Q V E) (v : V) :
    ((BasicQueue.push I st v).1.is_ready = true ↔ I.is_full st.q = false) ∧
    push_then_destroy I st v =
      (if I.is_full st.q then (st, none) else push2 I st v) := by
  cases h : I.is_full st.q with
  | true =>
      refine ⟨?_, ?_⟩
      · simp [BasicQueue.push, h, PushAwt.is_ready]
      · simp [push_then_destroy, BasicQueue.push, h, push_async_cb]
  | false =>
      refine ⟨?_, ?_⟩
      · simp [BasicQueue.push, h, PushAwt.is_ready]
      · simp [push_then_destroy, BasicQueue.push, h]

/-- C9 witness: the theorem applied to a full bounded queue of capacity
one (the pending push awaitable destroyed unawaited leaves the queue
unchanged). -/
theorem c9_witness :
    ((BasicQueue.push (limited_queue Nat 1)
        (⟨⟨[some 7], 1, 0⟩, [], [], false⟩ : BasicQueue (LimitedQueue Nat) Nat Unit)
        5).1.is_ready = true ↔
      (limited_queue Nat 1).is_full
        (⟨⟨[some 7], 1, 0⟩, [], [], false⟩ :
          BasicQueue (LimitedQueue Nat) Nat Unit).q = false) ∧
    push_then_destroy (limited_queue Nat 1)
      (⟨⟨[some 7], 1, 0⟩, [], [], false⟩ : BasicQueue (LimitedQueue Nat) Nat Unit) 5 =
      (if (limited_queue Nat 1).is_full
          (⟨⟨[some 7], 1, 0⟩, [], [], false⟩ :
            BasicQueue (LimitedQueue Nat) Nat Unit).q
        then ((⟨⟨[some 7], 1, 0⟩, [], [], false⟩ :
            BasicQueue (LimitedQueue Nat) Nat Unit), none)
        else push2 (limited_queue Nat 1)
          (⟨⟨[some 7], 1, 0⟩, [], [], false⟩ :
            BasicQueue (LimitedQueue Nat) Nat Unit) 5) :=
  c9_push_destroy (limited_queue Nat 1) ⟨⟨[some 7], 1, 0⟩, [], [], false⟩ 5

/-! ## Theorems about when_each -/

/-- Reading a list cell other than the one just written. -/
theorem getD_set_ne (l : List Nat) (i j v : Nat) (h : i ≠ j) :
    (l.set i v).getD j 0 = l.getD j 0 := by
  simp [List.getD_eq_getElem?_getD, List.getElem?_set_ne h]

/-- Reading back the list cell just written (the write lands because the
index is within the list). -/
theorem getD_set_self (l : List Nat) (i v : Nat) (h : i < l.length) :
    (l.set i v).getD i 0 = v := by
  simp [List.getD_eq_getElem?_getD, List.getElem?_set_eq_of_lt v h]

/-- `applyAll` only writes cells and bumps `_free_slot`: the cursor
`_nx`, the count `_cnt` and the array length are untouched, and
`_free_slot` advances by one per completion. -/
theorem applyAll_shape (order : List Nat) :
    ∀ w : WhenEach,
      (w.applyAll order).nx = w.nx ∧
      (w.applyAll order).cnt = w.cnt ∧
      (w.applyAll order).finished.length = w.finished.length ∧
      (w.applyAll order).free_slot = w.free_slot + order.length := by
  induction order with
  | nil => intro w; simp [WhenEach.applyAll]
  | cons i rest ih =>
      intro w
      have h1 : w.applyAll (i :: rest) = ((w.resumed i).1).applyAll rest := rfl
      obtain ⟨ha, hb, hc, hd⟩ := ih (w.resumed i).1
      refine ⟨?_, ?_, ?_, ?_⟩
      · rw [h1, ha]; simp [WhenEach.resumed]
      · rw [h1, hb]; simp [WhenEach.resumed]
      · rw [h1, hc]; simp [WhenEach.resumed]
      · rw [h1, hd]; simp [WhenEach.resumed]; omega

/-- Cells strictly below the write cursor are not changed by later
completions. -/
theorem applyAll_getD_low (order : List Nat) :
    ∀ (w : WhenEach) (j : Nat), j < w.free_slot →
      (w.applyAll order).finished.getD j 0 = w.finished.getD j 0 := by
  induction order with
  | nil => intro w j _; rfl
  | cons i rest ih =>
      intro w j hj
      have h1 : w.applyAll (i :: rest) = ((w.resumed i).1).applyAll rest := rfl
      rw [h1, ih (w.resumed i).1 j (by simp [WhenEach.resumed]; omega)]
      simp only [WhenEach.resumed]
      exact getD_set_ne _ _ _ _ (by omega)

/-- After completing the awaiters listed in `order` (k-th element of
`order` completed k-th), cell `free_slot + k` of `_finished` holds
`order[k] + 2`. -/
theorem applyAll_getD_at (order : List Nat) :
    ∀ (w : WhenEach) (k : Nat), k < order.length →
      w.free_slot + order.length ≤ w.finished.length →
      (w.applyAll order).finished.getD (w.free_slot + k) 0 = order.getD k 0 + 2 := by
  induction order with
  | nil => intro w k hk _; simp at hk
  | cons i rest ih =>
      intro w k hk hlen
      have h1 : w.applyAll (i :: rest) = ((w.resumed i).1).applyAll rest := rfl
      cases k with
      | zero =>
          rw [h1, Nat.add_zero,
            applyAll_getD_low rest (w.resumed i).1 w.free_slot
              (by simp [WhenEach.resumed])]
          simp only [WhenEach.resumed, List.getD_cons_zero]
          exact getD_set_self _ _ _ (by simp at hlen ⊢; omega)
      | succ k1 =>
          have h2 : w.free_slot + (k1 + 1) = (w.resumed i).1.free_slot + k1 := by
            simp [WhenEach.resumed]; omega
          rw [h1, h2, ih (w.resumed i).1 k1 (by simp at hk; omega)
            (by simp [WhenEach.resumed]; simp at hlen; omega)]
          simp

/-- `n` awaits read back the cells at `_nx .. _nx + n - 1`, each
decremented by 2, advancing only the cursor. -/
theorem consume_spec (l : List Nat) :
    ∀ w : WhenEach, w.nx + l.length ≤ w.cnt →
      (∀ k, k < l.length → w.finished.getD (w.nx + k) 0 = l.getD k 0 + 2) →
      w.consume l.length = (l, { w with nx := w.nx + l.length }) := by
  induction l with
  | nil => intro w _ _; simp [WhenEach.consume]
  | cons a rest ih =>
      intro w hcnt hread
      have hlen : (a :: rest).length = rest.length + 1 := rfl
      have hlt : ¬ w.nx ≥ w.cnt := by omega
      have h0 : w.finished.getD w.nx 0 = a + 2 := by
        have h00 := hread 0 (by simp)
        simpa using h00
      have hres : w.await_resume = (a, { w with nx := w.nx + 1 }) := by
        simp only [WhenEach.await_resume, if_neg hlt]
        rw [h0]
        simp
      have hrest : ({ w with nx := w.nx + 1 } : WhenEach).consume rest.length =
          (rest, { w with nx := (w.nx + 1) + rest.length }) := by
        refine ih { w with nx := w.nx + 1 } (by simp; omega) ?_
        intro k hk
        have h01 := hread (k + 1) (by simp; omega)
        have h02 : w.nx + (k + 1) = w.nx + 1 + k := by omega
        rw [h02] at h01
        simpa using h01
      show (let p := w.await_resume
            let q := p.2.consume rest.length
            (p.1 :: q.1, q.2)) = _
      rw [hres]
      simp only [hrest]
      refine Prod.ext rfl ?_
      simp
      omega

/-- C5: for a `when_each` over N awaiters that complete in the order
given by the list `order` (a permutation of 0..N-1: each awaiter
completes exactly once, each index below N), the N awaits yield exactly
the sequence `order` -- i.e. exactly N indices in total, pairwise
distinct, each in the range 0..N-1, in completion order. -/
theorem c5_when_each_yields_completion_order (order : List Nat)
    (hnd : order.Nodup) (hlt : ∀ i ∈ order, i < order.length) :
    ((((WhenEach.start order.length).applyAll order).consume order.length).1 = order) ∧
    ((((WhenEach.start order.length).applyAll order).consume order.length).1.length
      = order.length) ∧
    ((((WhenEach.start order.length).applyAll order).consume order.length).1.Nodup) ∧
    (∀ i ∈ (((WhenEach.start order.length).applyAll order).consume order.length).1,
      i < order.length) := by
  obtain ⟨ha, hb, hc, hd⟩ := applyAll_shape order (WhenEach.start order.length)
  have hmain := consume_spec order ((WhenEach.start order.length).applyAll order)
      (by rw [ha, hb]; simp [WhenEach.start])
      (by intro k hk
          have h5 := applyAll_getD_at order (WhenEach.start order.length) k hk
            (by simp [WhenEach.start])
          rw [ha]
          simpa [WhenEach.start] using h5)
  rw [hmain]
  exact ⟨rfl, rfl, hnd, hlt⟩

/-- C5 witness: three awaiters completing in the order 2, 0, 1; the
three awaits of the when_each object yield 2, 0, 1. -/
theorem c5_witness :
    ((((WhenEach.start 3).applyAll [2, 0, 1]).consume 3).1 = [2, 0, 1]) ∧
    ((((WhenEach.start 3).applyAll [2, 0, 1]).consume 3).1.length = 3) ∧
    ((((WhenEach.start 3).applyAll [2, 0, 1]).consume 3).1.Nodup) ∧
    (∀ i ∈ (((WhenEach.start 3).applyAll [2, 0, 1]).consume 3).1, i < 3) :=
  c5_when_each_yields_completion_order [2, 0, 1] (by decide) (by decide)

/-- C10: in the same completed scenario (all N completion indices
consumed), the cursor `_nx` has reached `_cnt = N`; every further await
is then immediate -- `await_ready` is true, so the consumer never
suspends -- and `await_resume` returns `_nx = N`, the number of
registered awaiters, one past the valid index range 0..N-1, leaving the
state unchanged (so every subsequent await behaves identically). -/
theorem c10_when_each_exhausted (order : List Nat)
    (hnd : order.Nodup) (hlt : ∀ i ∈ order, i < order.length) :
    ((((WhenEach.start order.length).applyAll order).consume order.length).2.nx
      = order.length) ∧
    ((((WhenEach.start order.length).applyAll order).consume order.length).2.cnt
      = order.length) ∧
    ((((WhenEach.start order.length).applyAll order).consume order.length).2.await_ready
      = true) ∧
    ((((WhenEach.start order.length).applyAll order).consume order.length).2.await_resume
      = (order.length,
         (((WhenEach.start order.length).applyAll order).consume order.length).2)) := by
  obtain ⟨ha, hb, hc, hd⟩ := applyAll_shape order (WhenEach.start order.length)
  have hmain := consume_spec order ((WhenEach.start order.length).applyAll order)
      (by rw [ha, hb]; simp [WhenEach.start])
      (by intro k hk
          have h5 := applyAll_getD_at order (WhenEach.start order.length) k hk
            (by simp [WhenEach.start])
          rw [ha]
          simpa [WhenEach.start] using h5)
  rw [hmain]
  have hnx : ((WhenEach.start order.length).applyAll order).nx = 0 := by
    rw [ha]; rfl
  have hcn : ((WhenEach.start order.length).applyAll order).cnt = order.length := by
    rw [hb]; rfl
  refine ⟨by simp [hnx], by simp [hcn], ?_, ?_⟩
  · simp [WhenEach.await_ready, hnx, hcn]
  · simp [WhenEach.await_resume, hnx, hcn]

/-- C10 witness: after the three completions 2, 0, 1 are consumed, a
fourth await is immediate and returns 3 (the number of registered
awaiters), leaving the state unchanged. -/
theorem c10_witness :
    ((((WhenEach.start 3).applyAll [2, 0, 1]).consume 3).2.nx = 3) ∧
    ((((WhenEach.start 3).applyAll [2, 0, 1]).consume 3).2.cnt = 3) ∧
    ((((WhenEach.start 3).applyAll [2, 0, 1]).consume 3).2.await_ready = true) ∧
    ((((WhenEach.start 3).applyAll [2, 0, 1]).consume 3).2.await_resume
      = (3, (((WhenEach.start 3).applyAll [2, 0, 1]).consume 3).2)) :=
  c10_when_each_exhausted [2, 0, 1] (by decide) (by decide)

/-! ## Theorems about the flat stack arena -/

namespace FlatStack

/-- Setting the low bit of an even word adds one (`(2k) | 1 = 2k + 1`). -/
theorem two_mul_lor_one (k : Nat) : 2 * k ||| 1 = 2 * k + 1 := by
  refine Nat.eq_of_testBit_eq fun i => ?_
  rw [Nat.testBit_lor]
  cases i with
  | zero =>
      rw [Nat.testBit_zero, Nat.testBit_zero, Nat.testBit_zero]
      simp [Nat.mul_add_mod, Nat.add_mod]
  | succ j =>
      rw [Nat.testBit_succ, Nat.testBit_succ, Nat.testBit_succ]
      have h1 : 2 * k / 2 = k := by omega
      have h2 : (2 * k + 1) / 2 = k := by omega
      have h3 : (1 : Nat) / 2 = 0 := by omega
      rw [h1, h2, h3]
      simp [Nat.zero_testBit]

/-- A fully freed block list contributes no unreclaimable span. -/
theorem trimmed_of_allFr (z : List Blk) (h : ∀ b ∈ z, b.fr = true) :
    trimmed z = 0 := by
  induction z with
  | nil => rfl
  | cons b r ih =>
      have hb := h b (by simp)
      have hr := ih (fun x hx => h x (by simp [hx]))
      simp [trimmed, hb, hr]

/-- A fully live block list is unreclaimable in its entirety. -/
theorem trimmed_of_allLive (z : List Blk) (h : ∀ b ∈ z, b.fr = false) :
    trimmed z = sumSz z := by
  induction z with
  | nil => rfl
  | cons b r ih =>
      have hb := h b (by simp)
      have hr := ih (fun x hx => h x (by simp [hx]))
      simp [trimmed, sumSz, hb, hr]

/-- `sumSz` distributes over append. -/
theorem sumSz_append (z1 z2 : List Blk) :
    sumSz (z1 ++ z2) = sumSz z1 + sumSz z2 := by
  induction z1 with
  | nil => simp [sumSz]
  | cons b r ih => simp [sumSz, ih]; omega

/-- A fully freed suffix does not change the unreclaimable span. -/
theorem trimmed_append_allFr (z1 z2 : List Blk) (h : ∀ b ∈ z2, b.fr = true) :
    trimmed (z1 ++ z2) = trimmed z1 := by
  induction z1 with
  | nil => simpa using trimmed_of_allFr z2 h
  | cons b r ih => simp [trimmed, ih]

/-- Appending one live block on top extends the unreclaimable span to
the whole list. -/
theorem trimmed_append_live (z1 : List Blk) (x : Blk) (hp : 0 < x.sz)
    (hm : x.fr = false) :
    trimmed (z1 ++ [x]) = sumSz z1 + x.sz := by
  induction z1 with
  | nil => simp [trimmed, sumSz, hm]
  | cons b r ih =>
      have hne : trimmed (r ++ [x]) ≠ 0 := by rw [ih]; omega
      have h1 : trimmed ((b :: r) ++ [x]) = trimmed (b :: (r ++ [x])) := rfl
      rw [h1, trimmed, if_neg (fun hco => hne hco.2), ih, sumSz]
      omega

/-- `trimmed` of a list that contains no freed-span is zero only when
everything is freed. -/
theorem allFr_of_trimmed_zero (z : List Blk) (hpos : ∀ b ∈ z, 0 < b.sz)
    (h : trimmed z = 0) : ∀ b ∈ z, b.fr = true := by
  induction z with
  | nil => simp
  | cons b r ih =>
      by_cases hc : b.fr = true ∧ trimmed r = 0
      · intro x hx
        rcases List.mem_cons.mp hx with h1 | h2
        · rw [h1]; exact hc.1
        · exact ih (fun y hy => hpos y (by simp [hy])) hc.2 x h2
      · exfalso
        rw [trimmed, if_neg hc] at h
        have := hpos b (by simp)
        omega

/-- `agrees` splits over append. -/
theorem agrees_append (z1 : List Blk) :
    ∀ (mem : Nat → Nat) (B : Nat) (z2 : List Blk),
      agrees mem B (z1 ++ z2) ↔ agrees mem B z1 ∧ agrees mem (B + sumSz z1) z2 := by
  induction z1 with
  | nil => intro mem B z2; simp [agrees, sumSz]
  | cons b r ih =>
      intro mem B z2
      have h1 : B + (b.sz + sumSz r) = B + b.sz + sumSz r := by omega
      simp [agrees, sumSz, ih, h1, and_assoc]

/-- The unreclaimable part of a block list is an initial segment: the
list splits as that segment followed by a fully freed suffix. -/
theorem decomp (z : List Blk) (hpos : ∀ b ∈ z, 0 < b.sz) :
    ∃ z1 z2, z = z1 ++ z2 ∧ (∀ b ∈ z2, b.fr = true) ∧ sumSz z1 = trimmed z := by
  induction z with
  | nil => exact ⟨[], [], rfl, by simp, rfl⟩
  | cons b r ih =>
      obtain ⟨z1, z2, heq, hmk2, hsum⟩ := ih (fun x hx => hpos x (by simp [hx]))
      by_cases hc : b.fr = true ∧ trimmed r = 0
      · refine ⟨[], b :: r, by simp, ?_, ?_⟩
        · intro x hx
          rcases List.mem_cons.mp hx with h1 | h2
          · rw [h1]; exact hc.1
          · exact allFr_of_trimmed_zero r (fun y hy => hpos y (by simp [hy])) hc.2 x h2
        · simp [trimmed, hc, sumSz]
      · refine ⟨b :: z1, z2, by simp [heq], hmk2, ?_⟩
        rw [trimmed, if_neg hc]
        simp [sumSz, hsum]

/-- `cleanup` does not move a top that sits on an even word (or on the
bottom of the arena). -/
theorem cleanup_stop (mem : Nat → Nat) (fuel B : Nat)
    (hb : B = 0 ∨ mem (B - 1) % 2 = 0) :
    cleanup mem fuel B = B := by
  cases fuel with
  | zero => rfl
  | succ f =>
      rcases hb with h0 | he
      · simp [cleanup, h0]
      · by_cases hB : B > 0
        · simp [cleanup, hB, he]
        · simp [cleanup, hB]

/-- Running `cleanup` from the top of a laid-out block list retracts the
top exactly over the maximal freed suffix, stopping at the last live
block (or at the base, whose underlying word is even or absent). -/
theorem cleanup_run (z : List Blk) :
    ∀ (mem : Nat → Nat) (B fuel : Nat),
      agrees mem B z → (∀ b ∈ z, 0 < b.sz) → (B = 0 ∨ mem (B - 1) % 2 = 0) →
      B + sumSz z ≤ fuel →
      cleanup mem fuel (B + sumSz z) = B + trimmed z := by
  induction z using List.reverseRecOn with
  | nil =>
      intro mem B fuel _ _ hb _
      simpa [sumSz, trimmed] using cleanup_stop mem fuel B hb
  | append_singleton z1 x ih =>
      intro mem B fuel hag hpos hb hfuel
      rw [agrees_append] at hag
      have hx : mem (B + sumSz z1 + x.sz - 1) = 2 * x.sz + (if x.fr then 1 else 0) := by
        have h2 := hag.2
        rw [agrees] at h2
        have h3 := h2.1
        have he : B + sumSz z1 + x.sz - 1 = B + sumSz z1 + x.sz - 1 := rfl
        exact h3
      have hxpos : 0 < x.sz := hpos x (by simp)
      have hsum : sumSz (z1 ++ [x]) = sumSz z1 + x.sz := by
        simp [sumSz_append, sumSz]
      rw [hsum] at hfuel ⊢
      cases fuel with
      | zero => omega
      | succ f =>
          have he2 : B + (sumSz z1 + x.sz) = B + sumSz z1 + x.sz := by omega
          rw [he2] at hfuel ⊢
          rw [cleanup, if_pos (by omega : B + sumSz z1 + x.sz > 0)]
          cases hmk : x.fr with
          | false =>
              rw [hx, hmk]
              have hv0 : 2 * x.sz + (if false then 1 else 0) = 2 * x.sz := by simp
              rw [hv0, if_neg (by omega : ¬ (2 * x.sz) % 2 = 1)]
              rw [trimmed_append_live z1 x hxpos hmk]
              omega
          | true =>
              rw [hx, hmk]
              have hv1 : 2 * x.sz + (if true then 1 else 0) = 2 * x.sz + 1 := by simp
              rw [hv1, if_pos (by omega : (2 * x.sz + 1) % 2 = 1)]
              have hdiv : (2 * x.sz + 1) / 2 = x.sz := by omega
              rw [hdiv]
              have he3 : B + sumSz z1 + x.sz - x.sz = B + sumSz z1 := by omega
              rw [he3]
              rw [ih mem B f hag.1 (fun b hbm => hpos b (by simp [hbm])) hb (by omega)]
              rw [trimmed_append_allFr z1 [x] (by intro y hy; simp at hy; rw [hy, hmk])]

/-- The element read by `getD` within bounds is a member of the list. -/
theorem getD_mem (z : List Blk) : ∀ j, j < z.length → z.getD j d0 ∈ z := by
  induction z with
  | nil => intro j hj; simp at hj
  | cons b r ih =>
      intro j hj
      cases j with
      | zero => simp
      | succ k =>
          rw [List.getD_cons_succ]
          exact List.mem_cons_of_mem b (ih k (by simp at hj; omega))

/-- Marking preserves the list length. -/
theorem markAt_length (z : List Blk) : ∀ i, (markAt z i).length = z.length := by
  induction z with
  | nil => intro i; rfl
  | cons b r ih =>
      intro i
      cases i with
      | zero => rfl
      | succ j => simp [markAt, ih j]

/-- Marking preserves the reserved word counts. -/
theorem markAt_sumSz (z : List Blk) : ∀ i, sumSz (markAt z i) = sumSz z := by
  induction z with
  | nil => intro i; rfl
  | cons b r ih =>
      intro i
      cases i with
      | zero => simp [markAt, sumSz]
      | succ j => simp [markAt, sumSz, ih j]

/-- Marking preserves the geometric layout (it only flips the freed
flag). -/
theorem markAt_layout (z : List Blk) :
    ∀ B i, layout B z → layout B (markAt z i) := by
  induction z with
  | nil => intro B i _; trivial
  | cons b r ih =>
      intro B i hl
      cases i with
      | zero => exact ⟨hl.1, hl.2.1, hl.2.2⟩
      | succ j => exact ⟨hl.1, hl.2.1, ih (B + b.sz) j hl.2.2⟩

/-- Marking preserves positivity of the word counts. -/
theorem markAt_pos (z : List Blk) :
    ∀ i, (∀ b ∈ z, 0 < b.sz) → ∀ b ∈ markAt z i, 0 < b.sz := by
  induction z with
  | nil => intro i _ b hbm; simp [markAt] at hbm
  | cons b r ih =>
      intro i hpos x hx
      cases i with
      | zero =>
          rcases List.mem_cons.mp hx with h1 | h2
          · rw [h1]; exact hpos b (by simp)
          · exact hpos x (by simp [h2])
      | succ j =>
          rcases List.mem_cons.mp hx with h1 | h2
          · rw [h1]; exact hpos b (by simp)
          · exact ih j (fun y hy => hpos y (by simp [hy])) x h2

/-- Marking commutes with append when the index falls in the first
part. -/
theorem markAt_append (z1 z2 : List Blk) :
    ∀ i, i < z1.length → markAt (z1 ++ z2) i = markAt z1 i ++ z2 := by
  induction z1 with
  | nil => intro i hi; simp at hi
  | cons b r ih =>
      intro i hi
      cases i with
      | zero => rfl
      | succ j =>
          have h1 : markAt ((b :: r) ++ z2) (j + 1) = b :: markAt (r ++ z2) j := rfl
          rw [h1, ih j (by simp at hi; omega)]
          rfl

/-- Reading the marked entry. -/
theorem markAt_getD_self (z : List Blk) :
    ∀ i, i < z.length → (markAt z i).getD i d0 = { z.getD i d0 with fr := true } := by
  induction z with
  | nil => intro i hi; simp at hi
  | cons b r ih =>
      intro i hi
      cases i with
      | zero => rfl
      | succ j => simpa [markAt] using ih j (by simp at hi; omega)

/-- Reading any other entry. -/
theorem markAt_getD_ne (z : List Blk) :
    ∀ i j, j ≠ i → (markAt z i).getD j d0 = z.getD j d0 := by
  induction z with
  | nil => intro i j _; rfl
  | cons b r ih =>
      intro i j hne
      cases i with
      | zero =>
          cases j with
          | zero => exact absurd rfl hne
          | succ k => rfl
      | succ i1 =>
          cases j with
          | zero => rfl
          | succ k => simpa [markAt] using ih i1 k (by omega)

/-- Every block's layout places its trailer at or above the base. -/
theorem layout_trailer_lb (z : List Blk) :
    ∀ B i, layout B z → i < z.length →
      B ≤ (z.getD i d0).p + to_blocks (z.getD i d0).bytes := by
  induction z with
  | nil => intro B i _ hi; simp at hi
  | cons b r ih =>
      intro B i hl hi
      cases i with
      | zero =>
          rw [List.getD_cons_zero, hl.1]
          have := hl.2.1
          omega
      | succ j =>
          rw [List.getD_cons_succ]
          have h1 := ih (B + b.sz) j hl.2.2 (by simp at hi; omega)
          omega

/-- Every block of a layout has a positive reserved word count. -/
theorem layout_allPos (z : List Blk) :
    ∀ B, layout B z → ∀ b ∈ z, 0 < b.sz := by
  induction z with
  | nil => intro B _ b hbm; simp at hbm
  | cons b r ih =>
      intro B hl x hx
      rcases List.mem_cons.mp hx with h1 | h2
      · rw [h1]; exact hl.2.1
      · exact ih (B + b.sz) hl.2.2 x h2

/-- Reading the word just written. -/
theorem wset_self (f : Nat → Nat) (i v : Nat) : wset f i v i = v := by
  simp [wset]

/-- Reading any other word. -/
theorem wset_ne (f : Nat → Nat) (i v x : Nat) (h : x ≠ i) : wset f i v x = f x := by
  simp [wset, h]

/-- Writing a word strictly below the base leaves `agrees` intact. -/
theorem agrees_wset_low (z : List Blk) :
    ∀ (mem : Nat → Nat) (B t v : Nat), (∀ b ∈ z, 0 < b.sz) → t < B →
      agrees mem B z → agrees (wset mem t v) B z := by
  induction z with
  | nil => intro mem B t v _ _ _; trivial
  | cons b r ih =>
      intro mem B t v hpos ht hag
      have hbpos : 0 < b.sz := hpos b (by simp)
      refine ⟨?_, ?_⟩
      · rw [wset_ne mem t v (B + b.sz - 1) (by omega)]
        exact hag.1
      · exact ih mem (B + b.sz) t v (fun y hy => hpos y (by simp [hy]))
          (by omega) hag.2

/-- Freeing block `i` flips exactly the low bit of that block's trailer:
the word array then agrees with the marked ghost list. -/
theorem agrees_mark (z : List Blk) :
    ∀ (mem : Nat → Nat) (B i : Nat),
      layout B z → agrees mem B z → i < z.length → (z.getD i d0).fr = false →
      agrees
        (wset mem ((z.getD i d0).p + to_blocks (z.getD i d0).bytes)
          (mem ((z.getD i d0).p + to_blocks (z.getD i d0).bytes) ||| 1))
        B (markAt z i) := by
  induction z with
  | nil => intro mem B i _ _ hi _; simp at hi
  | cons b r ih =>
      intro mem B i hlay hag hi hmk
      cases i with
      | zero =>
          rw [List.getD_cons_zero] at hmk ⊢
          have hsep : b.p + to_blocks b.bytes = B + b.sz - 1 := hlay.1
          have hval : mem (b.p + to_blocks b.bytes) = 2 * b.sz := by
            rw [hsep, hag.1, hmk]
            simp
          refine ⟨?_, ?_⟩
          · show wset mem (b.p + to_blocks b.bytes)
                (mem (b.p + to_blocks b.bytes) ||| 1) (B + b.sz - 1)
              = 2 * b.sz + (if true then 1 else 0)
            rw [← hsep, wset_self, hval, two_mul_lor_one]
            simp
          · show agrees (wset mem (b.p + to_blocks b.bytes)
                (mem (b.p + to_blocks b.bytes) ||| 1)) (B + b.sz) r
            exact agrees_wset_low r mem (B + b.sz) _ _
              (layout_allPos r (B + b.sz) hlay.2.2)
              (by rw [hsep]; have := hlay.2.1; omega) hag.2
      | succ j =>
          rw [List.getD_cons_succ] at hmk ⊢
          have hj : j < r.length := by simp at hi; omega
          have hlb := layout_trailer_lb r (B + b.sz) j hlay.2.2 hj
          refine ⟨?_, ?_⟩
          · show wset mem ((r.getD j d0).p + to_blocks (r.getD j d0).bytes)
                (mem ((r.getD j d0).p + to_blocks (r.getD j d0).bytes) ||| 1)
                (B + b.sz - 1) = 2 * b.sz + (if b.fr then 1 else 0)
            rw [wset_ne _ _ _ _ (by have := hlay.2.1; omega)]
            exact hag.1
          · exact ih mem (B + b.sz) j hlay.2.2 hag.2 hj hmk

/-- Freeing a block above the base does not touch the word below the
base. -/
theorem mark_base (z : List Blk) (mem : Nat → Nat) (B i : Nat)
    (hlay : layout B z) (hi : i < z.length)
    (hb : B = 0 ∨ mem (B - 1) % 2 = 0) :
    B = 0 ∨
      wset mem ((z.getD i d0).p + to_blocks (z.getD i d0).bytes)
        (mem ((z.getD i d0).p + to_blocks (z.getD i d0).bytes) ||| 1)
        (B - 1) % 2 = 0 := by
  rcases hb with h0 | he
  · exact Or.inl h0
  · by_cases hB : B = 0
    · exact Or.inl hB
    · right
      have hlb := layout_trailer_lb z B i hlay hi
      rw [wset_ne _ _ _ _ (by omega)]
      exact he

/-- `getD` on an append, index in the second part. -/
theorem getD_append_ge (z1 z2 : List Blk) :
    ∀ i, z1.length ≤ i → (z1 ++ z2).getD i d0 = z2.getD (i - z1.length) d0 := by
  induction z1 with
  | nil => intro i _; simp
  | cons b r ih =>
      intro i hge
      cases i with
      | zero => simp at hge
      | succ j =>
          have h1 : ((b :: r) ++ z2).getD (j + 1) d0 = (r ++ z2).getD j d0 := rfl
          rw [h1, ih j (by simp at hge; omega)]
          simp

/-- `getD` on an append, index in the first part. -/
theorem getD_append_lt (z1 z2 : List Blk) :
    ∀ i, i < z1.length → (z1 ++ z2).getD i d0 = z1.getD i d0 := by
  induction z1 with
  | nil => intro i hi; simp at hi
  | cons b r ih =>
      intro i hi
      cases i with
      | zero => rfl
      | succ j =>
          have h1 : ((b :: r) ++ z2).getD (j + 1) d0 = (r ++ z2).getD j d0 := rfl
          rw [h1, ih j (by simp at hi; omega)]
          rfl

/-- One `do_deallocate` of a still-live block `i`, starting from a state
that agrees with the ghost list and whose top covers exactly the
unreclaimable span: afterwards the state agrees with the ghost list with
block `i` marked, and the top again covers exactly the (possibly
shrunk) unreclaimable span. -/
theorem dealloc_one (z : List Blk) (B : Nat) (st : Resource) (i : Nat)
    (hlay : layout B z) (hag : agrees st.mem B z)
    (hb : B = 0 ∨ st.mem (B - 1) % 2 = 0)
    (htop : st.top = B + trimmed z)
    (hi : i < z.length) (hmk : (z.getD i d0).fr = false) :
    layout B (markAt z i) ∧
    agrees (do_deallocate st (z.getD i d0).p (z.getD i d0).bytes).mem B (markAt z i) ∧
    (B = 0 ∨ (do_deallocate st (z.getD i d0).p (z.getD i d0).bytes).mem (B - 1) % 2 = 0) ∧
    (do_deallocate st (z.getD i d0).p (z.getD i d0).bytes).top
      = B + trimmed (markAt z i) := by
  have hpos : ∀ b ∈ z, 0 < b.sz := layout_allPos z B hlay
  have hagm := agrees_mark z st.mem B i hlay hag hi hmk
  have hbm := mark_base z st.mem B i hlay hi hb
  refine ⟨markAt_layout z B i hlay, hagm, hbm, ?_⟩
  obtain ⟨z1, z2, heq, hfr2, hsum⟩ := decomp z hpos
  have hi1 : i < z1.length := by
    by_contra hge
    push_neg at hge
    have hlen : i - z1.length < z2.length := by
      rw [heq, List.length_append] at hi; omega
    have hx : z.getD i d0 = z2.getD (i - z1.length) d0 := by
      rw [heq]; exact getD_append_ge z1 z2 i hge
    have hctr : (z2.getD (i - z1.length) d0).fr = true :=
      hfr2 _ (getD_mem z2 _ hlen)
    rw [hx, hctr] at hmk
    exact Bool.noConfusion hmk
  have hma : markAt z i = markAt z1 i ++ z2 := by
    rw [heq]; exact markAt_append z1 z2 i hi1
  rw [hma] at hagm
  rw [agrees_append] at hagm
  have hsum2 : st.top = B + sumSz (markAt z1 i) := by
    rw [markAt_sumSz z1 i, hsum, htop]
  show cleanup
      (wset st.mem ((z.getD i d0).p + to_blocks (z.getD i d0).bytes)
        (st.mem ((z.getD i d0).p + to_blocks (z.getD i d0).bytes) ||| 1))
      st.top st.top = B + trimmed (markAt z i)
  rw [hma, trimmed_append_allFr _ z2 hfr2]
  have hposm : ∀ b ∈ markAt z1 i, 0 < b.sz :=
    markAt_pos z1 i (fun y hy => hpos y (by rw [heq]; exact List.mem_append_left z2 hy))
  have hcl := cleanup_run (markAt z1 i)
      (wset st.mem ((z.getD i d0).p + to_blocks (z.getD i d0).bytes)
        (st.mem ((z.getD i d0).p + to_blocks (z.getD i d0).bytes) ||| 1))
      B st.top hagm.1 hposm hbm (by omega)
  rw [← hsum2] at hcl
  exact hcl

/-- Deallocating, in any order, every block of a ghost list that is
still entirely live brings the top back to the base.  `ord` enumerates
the blocks to free (`blocks.getD i` is the pointer/size pair block `i`
was allocated with), `rest`-membership tracks which blocks are still
live. -/
theorem dealloc_seq_run (ord : List Nat) :
    ∀ (z : List Blk) (B : Nat) (st : Resource) (blocks : List (Nat × Nat)),
      layout B z → agrees st.mem B z → (B = 0 ∨ st.mem (B - 1) % 2 = 0) →
      st.top = B + trimmed z →
      (∀ j, j < z.length → blocks.getD j (0, 0) = ((z.getD j d0).p, (z.getD j d0).bytes)) →
      ord.Nodup →
      (∀ j ∈ ord, j < z.length ∧ (z.getD j d0).fr = false) →
      (∀ j, j < z.length → (z.getD j d0).fr = false → j ∈ ord) →
      (dealloc_seq st blocks ord).top = B := by
  induction ord with
  | nil =>
      intro z B st blocks hlay hag hb htop hcor hnd hfwd hbwd
      have hall : ∀ b ∈ z, b.fr = true := by
        intro b hbm
        obtain ⟨j, hj, hjb⟩ := List.mem_iff_getElem.mp hbm
        have hget : z.getD j d0 = b := by
          rw [List.getD_eq_getElem?_getD, List.getElem?_eq_getElem hj]
          simpa using hjb
        by_contra hne
        have hfalse : (z.getD j d0).fr = false := by
          rw [hget]; exact Bool.not_eq_true _ ▸ (by simpa using hne)
        exact absurd (hbwd j hj hfalse) (List.not_mem_nil j)
      have h0 : trimmed z = 0 := trimmed_of_allFr z hall
      show st.top = B
      rw [htop, h0]
      omega
  | cons i rest ih =>
      intro z B st blocks hlay hag hb htop hcor hnd hfwd hbwd
      obtain ⟨hi, hmki⟩ := hfwd i (by simp)
      obtain ⟨hlay2, hag2, hb2, htop2⟩ := dealloc_one z B st i hlay hag hb htop hi hmki
      have hblk : blocks.getD i (0, 0) = ((z.getD i d0).p, (z.getD i d0).bytes) :=
        hcor i hi
      have hunf : dealloc_seq st blocks (i :: rest) =
          dealloc_seq (do_deallocate st (z.getD i d0).p (z.getD i d0).bytes)
            blocks rest := by
        show dealloc_seq
          (do_deallocate st (blocks.getD i (0, 0)).1 (blocks.getD i (0, 0)).2)
          blocks rest = _
        rw [hblk]
      rw [hunf]
      have hnotmem : i ∉ rest := (List.nodup_cons.mp hnd).1
      refine ih (markAt z i) B _ blocks hlay2 hag2 hb2 htop2 ?_ (List.nodup_cons.mp hnd).2 ?_ ?_
      · intro j hj
        rw [markAt_length] at hj
        by_cases hji : j = i
        · rw [hji, markAt_getD_self z i hi]
          exact hcor i hi
        · rw [markAt_getD_ne z i j hji]
          exact hcor j hj
      · intro j hjm
        have hji : j ≠ i := fun hco => hnotmem (hco ▸ hjm)
        obtain ⟨hjl, hjf⟩ := hfwd j (by simp [hjm])
        rw [markAt_length]
        exact ⟨hjl, by rw [markAt_getD_ne z i j hji]; exact hjf⟩
      · intro j hj hjf
        rw [markAt_length] at hj
        by_cases hji : j = i
        · rw [hji, markAt_getD_self z i hi] at hjf
          exact Bool.noConfusion hjf
        · rw [markAt_getD_ne z i j hji] at hjf
          have := hbwd j hj hjf
          rcases List.mem_cons.mp this with h1 | h2
          · exact absurd h1 hji
          · exact h2

/-- Reading any trailer through the ghost list. -/
theorem agrees_getD (z : List Blk) :
    ∀ (mem : Nat → Nat) (B : Nat), layout B z → agrees mem B z →
      ∀ j, j < z.length →
        mem ((z.getD j d0).p + to_blocks (z.getD j d0).bytes)
          = 2 * (z.getD j d0).sz + (if (z.getD j d0).fr then 1 else 0) := by
  induction z with
  | nil => intro mem B _ _ j hj; simp at hj
  | cons b r ih =>
      intro mem B hlay hag j hj
      cases j with
      | zero =>
          rw [List.getD_cons_zero, hlay.1]
          exact hag.1
      | succ k =>
          rw [List.getD_cons_succ]
          exact ih mem (B + b.sz) hlay.2.2 hag.2 k (by simp at hj; omega)

/-- A member of the pointer/size list sits at some index. -/
theorem blocks_mem_index (l : List (Nat × Nat)) :
    ∀ b, b ∈ l → ∃ j, j < l.length ∧ l.getD j (0, 0) = b := by
  induction l with
  | nil => intro b hb; simp at hb
  | cons x r ih =>
      intro b hb
      rcases List.mem_cons.mp hb with h1 | h2
      · exact ⟨0, by simp, by simp [h1]⟩
      · obtain ⟨j, hj, hjb⟩ := ih b h2
        exact ⟨j + 1, by simp; omega, by simpa using hjb⟩

/-- Running a request list through `do_allocate` produces a ghost block
list laid out consecutively above the starting top, all blocks live,
each trailer holding its reserved word count shifted left by one, the
top advanced by the total reservation, the returned pointer/size pairs
matching the ghost blocks, and no word below the starting top
modified. -/
theorem alloc_all_run (reqs : List (Nat × Nat)) :
    ∀ (st0 : Resource) (blocks : List (Nat × Nat)) (st1 : Resource),
      alloc_all st0 reqs = some (blocks, st1) →
      ∃ z : List Blk,
        layout st0.top z ∧
        agrees st1.mem st0.top z ∧
        (∀ b ∈ z, b.fr = false) ∧
        st1.top = st0.top + sumSz z ∧
        blocks.length = z.length ∧
        (∀ j, j < z.length →
          blocks.getD j (0, 0) = ((z.getD j d0).p, (z.getD j d0).bytes)) ∧
        (∀ x, x < st0.top → st1.mem x = st0.mem x) := by
  induction reqs with
  | nil =>
      intro st0 blocks st1 h
      have h1 : [] = blocks ∧ st0 = st1 := by
        simpa [alloc_all] using h
      obtain ⟨hbl, hst⟩ := h1
      refine ⟨[], trivial, ?_, by simp, ?_, by simp [← hbl], by intro j hj; simp at hj, ?_⟩
      · rw [← hst]; trivial
      · rw [← hst]; simp [sumSz]
      · intro x _; rw [← hst]
  | cons hd rest ih =>
      intro st0 blocks st1 h
      obtain ⟨bytes, align⟩ := hd
      rw [alloc_all] at h
      cases hda : do_allocate st0 bytes align with
      | none =>
          rw [hda] at h
          exact absurd
            (show (none : Option (List (Nat × Nat) × Resource)) = some (blocks, st1) from h)
            (by simp)
      | some pst =>
          obtain ⟨p, stA⟩ := pst
          rw [hda] at h
          have h2 : (match alloc_all stA rest with
              | none => none
              | some pr => some ((p, bytes) :: pr.1, pr.2)) = some (blocks, st1) := h
          cases hra : alloc_all stA rest with
          | none =>
              rw [hra] at h2
              exact absurd
                (show (none : Option (List (Nat × Nat) × Resource)) = some (blocks, st1) from h2)
                (by simp)
          | some pr =>
              obtain ⟨blks, stB⟩ := pr
              rw [hra] at h2
              have h4 : some ((p, bytes) :: blks, stB) = some (blocks, st1) := h2
              have hinj : (p, bytes) :: blks = blocks ∧ stB = st1 := by
                simpa using h4
              obtain ⟨hbl, hst⟩ := hinj
              rw [do_allocate] at hda
              by_cases hov : st0.top + needsz st0.top bytes align > st0.count
              · rw [if_pos hov] at hda; exact absurd hda (by simp)
              · rw [if_neg hov] at hda
                have hinj2 : st0.top + aextra st0.top align = p ∧
                    ({ st0 with
                        mem := wset st0.mem
                          (st0.top + needsz st0.top bytes align - 1)
                          (2 * needsz st0.top bytes align)
                        top := st0.top + needsz st0.top bytes align } : Resource) = stA := by
                  simpa using hda
                obtain ⟨hp, hstA⟩ := hinj2
                have hAtop : stA.top = st0.top + needsz st0.top bytes align := by
                  rw [← hstA]
                have hAmem : stA.mem = wset st0.mem
                    (st0.top + needsz st0.top bytes align - 1)
                    (2 * needsz st0.top bytes align) := by
                  rw [← hstA]
                obtain ⟨z', hlay', hag', hliv', htop', hlen', hcor', hbelow'⟩ :=
                  ih stA blks stB hra
                have hN1 : 0 < needsz st0.top bytes align := by
                  simp [needsz]
                refine ⟨⟨p, bytes, needsz st0.top bytes align, false⟩ :: z',
                  ⟨?_, hN1, ?_⟩, ⟨?_, ?_⟩, ?_, ?_, ?_, ?_, ?_⟩
                · show p + to_blocks bytes = st0.top + needsz st0.top bytes align - 1
                  rw [← hp]
                  simp only [needsz]
                  omega
                · show layout (st0.top + needsz st0.top bytes align) z'
                  rw [← hAtop]
                  exact hlay'
                · rw [hst] at hbelow'
                  have hres : st1.mem (st0.top + needsz st0.top bytes align - 1)
                      = 2 * needsz st0.top bytes align := by
                    rw [hbelow' _ (by rw [hAtop]; omega), hAmem, wset_self]
                  simpa using hres
                · rw [← hst]
                  show agrees stB.mem (st0.top + needsz st0.top bytes align) z'
                  rw [← hAtop]
                  exact hag'
                · intro b hbm
                  rcases List.mem_cons.mp hbm with h1 | h2
                  · rw [h1]
                  · exact hliv' b h2
                · rw [← hst, htop', hAtop]
                  simp [sumSz]
                  omega
                · rw [← hbl]
                  simp [hlen']
                · intro j hj
                  cases j with
                  | zero => rw [← hbl]; rfl
                  | succ k =>
                      rw [← hbl, List.getD_cons_succ, List.getD_cons_succ]
                      exact hcor' k (by simp at hj; omega)
                · intro x hx
                  rw [← hst, hbelow' x (by omega), hAmem,
                    wset_ne _ _ _ _ (by omega)]

/-- C7: in the flat-stack arena, every allocation records its reserved
block count in the trailer word at the end of its block (the word at
`pointer + to_blocks(bytes)` holds `needsz << 1`, an even word, see
the first conjunct) and advances the top; deallocation sets the least
significant bit of exactly that trailer and `cleanup` retracts the top
over the contiguous suffix of freed blocks; therefore, for every
sequence of successful allocations followed by deallocation of all of
them in any order (`ord` is any enumeration of the block indices), the
top pointer returns to its value before the first allocation.  The
starting state satisfies the invariant every reachable arena satisfies:
the top is 0 or rests on an even (unmarked) word. -/
theorem c7_flat_stack_roundtrip
    (st0 : Resource) (reqs blocks : List (Nat × Nat)) (st1 : Resource)
    (ord : List Nat)
    (halign : ∀ r ∈ reqs, 0 < r.2)
    (hbase : st0.top = 0 ∨ st0.mem (st0.top - 1) % 2 = 0)
    (halloc : alloc_all st0 reqs = some (blocks, st1))
    (hnd : ord.Nodup)
    (hcover : ∀ i, i ∈ ord ↔ i < blocks.length) :
    (∀ b ∈ blocks, ∃ sz, 0 < sz ∧ st1.mem (b.1 + to_blocks b.2) = 2 * sz) ∧
    (dealloc_seq st1 blocks ord).top = st0.top := by
  obtain ⟨z, hlay, hag, hliv, htop, hlen, hcor, hbelow⟩ :=
    alloc_all_run reqs st0 blocks st1 halloc
  constructor
  · intro b hbm
    obtain ⟨j, hj, hjb⟩ := blocks_mem_index blocks b hbm
    have hj2 : j < z.length := hlen ▸ hj
    have hagj := agrees_getD z st1.mem st0.top hlay hag j hj2
    refine ⟨(z.getD j d0).sz,
      layout_allPos z st0.top hlay _ (getD_mem z j hj2), ?_⟩
    rw [← hjb, hcor j hj2]
    show st1.mem ((z.getD j d0).p + to_blocks (z.getD j d0).bytes)
      = 2 * (z.getD j d0).sz
    rw [hagj, hliv _ (getD_mem z j hj2)]
    simp
  · refine dealloc_seq_run ord z st0.top st1 blocks hlay hag ?_ ?_ ?_ hnd ?_ ?_
    · rcases hbase with h0 | he
      · exact Or.inl h0
      · by_cases hz : st0.top = 0
        · exact Or.inl hz
        · exact Or.inr (by rw [hbelow (st0.top - 1) (by omega)]; exact he)
    · rw [htop, trimmed_of_allLive z hliv]
    · exact hcor
    · intro j hjm
      have hjb : j < blocks.length := (hcover j).mp hjm
      have hjz : j < z.length := hlen ▸ hjb
      exact ⟨hjz, hliv _ (getD_mem z j hjz)⟩
    · intro j hj _
      exact (hcover j).mpr (hlen ▸ hj)

/-- C7 witness: a fresh arena of 100 words; two 8-byte, 8-byte-aligned
allocations (reserving 2 words each: payload plus trailer, at pointers
0 and 2, trailers at words 1 and 3 holding 4 = 2 << 1); deallocating
them in non-LIFO order 0 then 1 returns the top to 0. -/
theorem c7_witness :
    (∀ b ∈ [((0 : Nat), (8 : Nat)), (2, 8)],
      ∃ sz, 0 < sz ∧
        (Resource.mk (wset (wset (fun _ => 0) 1 4) 3 4) 100 4).mem
          (b.1 + to_blocks b.2) = 2 * sz) ∧
    (dealloc_seq (Resource.mk (wset (wset (fun _ => 0) 1 4) 3 4) 100 4)
      [(0, 8), (2, 8)] [0, 1]).top = (Resource.mk (fun _ => 0) 100 0).top :=
  c7_flat_stack_roundtrip (Resource.mk (fun _ => 0) 100 0) [(8, 8), (8, 8)]
    [(0, 8), (2, 8)] (Resource.mk (wset (wset (fun _ => 0) 1 4) 3 4) 100 4)
    [0, 1]
    (by decide)
    (Or.inl rfl)
    rfl
    (by decide)
    (by intro i; simp; omega)

end FlatStack

end BasicCoro
